import Mathlib

/-!
# Verification of the `ordmask` boundary-mask library

Shallow embedding of the `ordmask` Rust crate: a mask over a totally
ordered type `T` is a list of boundary values (`key_points`, kept in
ascending order by the safe constructors) together with a `reversed`
flag giving the inclusion state of the region below the first boundary.

The embedding follows the source files:
 - `src/ordmask.rs`              (queries, `simplify`, `get_key_points`)
 - `src/ordmask/construct.rs`    (constructors, `from_key_points_set`/`_map`)
 - `src/ordmask/convert.rs`      (`get_first_falling_index`, `try_new`, errors)
 - `src/ordmask/operations.rs`   (union, intersection, minus,
                                  symmetric_difference, complement)
 - `src/min_value.rs`            (the `MinValue` trait)

Rust's `Vec<T>` becomes `List T`; the `BTreeSet<T>` used when merging
key points becomes its ascending, deduplicated element list, built by
ordered insertion; the panicking `Vec` index in `is_include_min_value`
becomes an `Option` result (`none` = panic); the fallible constructor
returns `Except`.  `Vec::partition_point(|x| x <= v)` on a vector that
is partitioned by the predicate (every non-decreasing vector is) equals
the number of elements satisfying the predicate, so it is embedded as
`countP`; all claims about membership quantify over well-formed
(non-decreasing) masks, where the two coincide.
-/

/-- The `MinValue` trait from `src/min_value.rs`: a capability returning a
type's minimum value.  The crate implements it for the primitive numeric
types, returning e.g. `i32::MIN`. -/
class MinValue (T : Type) where
  min_value : T

/-- `i32::MIN` for the model of `i32` as `Int` used in concrete tests. -/
def i32MIN : Int := -(2 ^ 31)

instance : MinValue Int := ⟨i32MIN⟩

/-- The `OrdMask` data type: boundary values plus the leading-state flag,
as declared by `src/ordmask/construct.rs`, `convert.rs` and
`operations.rs` (`Self { key_points, reversed }`). -/
structure OrdMask (T : Type) where
  key_points : List T
  reversed : Bool
deriving DecidableEq

namespace OrdMask

variable {T : Type} [LinearOrder T]

/-- `OrdMask::len` (src/ordmask.rs). -/
def len (m : OrdMask T) : Nat :=
  m.key_points.length

/-- `OrdMask::is_empty` (src/ordmask.rs). -/
def is_empty (m : OrdMask T) : Bool :=
  m.key_points.isEmpty

/-- `get_first_falling_index`'s scan (src/ordmask/convert.rs): walk
adjacent pairs with the running index, return the index of the second
element of the first falling pair, `0` if none. -/
def gffiAux : List T → Nat → Nat
  | x :: y :: rest, i => if y < x then i + 1 else gffiAux (y :: rest) (i + 1)
  | _, _ => 0

/-- `get_first_falling_index` (src/ordmask/convert.rs): first `i ≥ 1`
with `vec[i] < vec[i-1]`, else `0`. -/
def get_first_falling_index (l : List T) : Nat :=
  gffiAux l 0

/-- `OrdMask::is_valid` (src/ordmask.rs). -/
def is_valid (m : OrdMask T) : Bool :=
  get_first_falling_index m.key_points == 0

/-- `OrdMask::included` (src/ordmask.rs):
`self.0.partition_point(|x| x <= value) % 2 == 1` — the parity of the
number of boundaries `≤ value`.  Note the source does not consult the
`reversed` flag. -/
def included (m : OrdMask T) (value : T) : Bool :=
  m.key_points.countP (fun x => decide (x ≤ value)) % 2 == 1

/-- `OrdMask::excluded` (src/ordmask.rs). -/
def excluded (m : OrdMask T) (value : T) : Bool :=
  !(m.included value)

/-- `OrdMask::is_include_max_value` (src/ordmask.rs). -/
def is_include_max_value (m : OrdMask T) : Bool :=
  m.key_points.length % 2 == 1

/-- The adjacent-duplicate scan of `OrdMask::is_simplified`
(src/ordmask.rs), as a recursion over the list. -/
def isSimplifiedList : List T → Bool
  | x :: y :: rest => !(x == y) && isSimplifiedList (y :: rest)
  | _ => true

/-- `OrdMask::is_simplified` (src/ordmask.rs). -/
def is_simplified (m : OrdMask T) : Bool :=
  isSimplifiedList m.key_points

/-- The run-collapsing loop of `OrdMask::simplify` (src/ordmask.rs),
with the current run's value `x` and its length `cnt` made explicit:
extend the run while the next element equals its start, emit the start
value once iff the run length is odd. -/
def simplifyAux (x : T) (cnt : Nat) : List T → List T
  | [] => if cnt % 2 = 1 then [x] else []
  | y :: ys =>
    if y == x then
      simplifyAux x (cnt + 1) ys
    else
      (if cnt % 2 = 1 then [x] else []) ++ simplifyAux y 1 ys

/-- `OrdMask::simplify`'s effect on the boundary vector (src/ordmask.rs).
The source's early return for `len < 2` is behaviour-preserving: on `[]`
and `[x]` the loop writes the list back unchanged. -/
def simplifyList : List T → List T
  | [] => []
  | x :: xs => simplifyAux x 1 xs

/-- `OrdMask::simplify` as a mask-level operation: the in-place mutation
`self.0 := simplified` replacing the boundary vector. -/
def simplify (m : OrdMask T) : OrdMask T :=
  ⟨simplifyList m.key_points, m.reversed⟩

/-- `OrdMask::is_include_min_value` (src/ordmask.rs):
`self.0[0] == T::min_value()`.  The `Vec` index panics on an empty
vector; the panic is modelled as `none`. -/
def is_include_min_value [MinValue T] (m : OrdMask T) : Option Bool :=
  m.key_points.head?.map (fun x => x == MinValue.min_value)

/-- `OrdMask::is_universal` (src/ordmask.rs):
`self.0.len() == 1 && self.is_include_min_value()`.  Because `&&`
short-circuits, the index in `is_include_min_value` is only reached when
the length is `1`, so the match below is total and faithful. -/
def is_universal [MinValue T] (m : OrdMask T) : Bool :=
  m.key_points.length == 1 &&
    (match m.is_include_min_value with
     | some b => b
     | none => false)

/-- `OrdMask::new` (src/ordmask/construct.rs). -/
def new (key_points : List T) (reversed : Bool) : OrdMask T :=
  ⟨key_points, reversed⟩

/-- `OrdMask::empty` (src/ordmask/construct.rs). -/
def empty : OrdMask T :=
  new [] false

/-- `OrdMask::universal` (src/ordmask/construct.rs). -/
def universal : OrdMask T :=
  new [] true

/-- `OrdMask::not_less_than` (src/ordmask/construct.rs). -/
def not_less_than (value : T) : OrdMask T :=
  new [value] false

/-- `OrdMask::less_than` (src/ordmask/construct.rs). -/
def less_than (value : T) : OrdMask T :=
  new [value] true

/-- `OrdMask::in_range` (src/ordmask/construct.rs). -/
def in_range (start stop : T) : OrdMask T :=
  if start < stop then new [start, stop] false else empty

/-- `OrdMask::exclude_range` (src/ordmask/construct.rs). -/
def exclude_range (start stop : T) : OrdMask T :=
  if start < stop then new [start, stop] true else universal

/-- The emission loop of `OrdMask::from_key_points_set`
(src/ordmask/construct.rs): walk the candidate points in order with the
number `k` of points kept so far, keep `p` iff
`(is_included(p) == (k % 2 == 0)) ^ include_min_value`. -/
def fromKeyPointsAux (is_included : T → Bool) (include_min_value : Bool) :
    List T → Nat → List T
  | [], _ => []
  | p :: rest, k =>
    if Bool.xor (is_included p == decide (k % 2 = 0)) include_min_value then
      p :: fromKeyPointsAux is_included include_min_value rest (k + 1)
    else
      fromKeyPointsAux is_included include_min_value rest k

/-- `OrdMask::from_key_points_set` (src/ordmask/construct.rs).  The
`BTreeSet` argument is modelled as its ascending element list. -/
def from_key_points_set (key_points : List T) (is_included : T → Bool)
    (include_min_value : Bool) : OrdMask T :=
  new (fromKeyPointsAux is_included include_min_value key_points 0)
    include_min_value

/-- The emission loop of `OrdMask::from_key_points_map`
(src/ordmask/construct.rs), over key/inclusion pairs in key order. -/
def fromKeyPointsMapAux (include_min_value : Bool) :
    List (T × Bool) → Nat → List T
  | [], _ => []
  | (p, inc) :: rest, k =>
    if Bool.xor (inc == decide (k % 2 = 0)) include_min_value then
      p :: fromKeyPointsMapAux include_min_value rest (k + 1)
    else
      fromKeyPointsMapAux include_min_value rest k

/-- `OrdMask::from_key_points_map` (src/ordmask/construct.rs).  The
`BTreeMap` argument is modelled as its list of entries ascending by
key. -/
def from_key_points_map (map : List (T × Bool)) (include_min_value : Bool) :
    OrdMask T :=
  new (fromKeyPointsMapAux include_min_value map 0) include_min_value

/-- Ordered, deduplicating insertion: one element added to the ascending
element list of a `BTreeSet`. -/
def insertSet (x : T) : List T → List T
  | [] => [x]
  | y :: ys =>
    if x < y then x :: y :: ys
    else if x == y then y :: ys
    else y :: insertSet x ys

/-- `OrdMask::get_key_points` (src/ordmask.rs): collect every mask's
boundary values into one `BTreeSet`, modelled as the ascending
deduplicated list. -/
def get_key_points (masks : List (OrdMask T)) : List T :=
  masks.foldl (fun acc m => m.key_points.foldl (fun a p => insertSet p a) acc) []

/-- `OrdMask::union` (src/ordmask/operations.rs). -/
def union (masks : List (OrdMask T)) : OrdMask T :=
  from_key_points_set (get_key_points masks)
    (fun x => masks.any (fun item => item.included x))
    (masks.any (fun item => item.reversed))

/-- `OrdMask::intersection` (src/ordmask/operations.rs). -/
def intersection (masks : List (OrdMask T)) : OrdMask T :=
  from_key_points_set (get_key_points masks)
    (fun x => masks.all (fun item => item.included x))
    (masks.all (fun item => item.reversed))

/-- `OrdMask::minus` (src/ordmask/operations.rs). -/
def minus (m : OrdMask T) (others : List (OrdMask T)) : OrdMask T :=
  from_key_points_set (get_key_points (m :: others))
    (fun x => m.included x && others.all (fun item => item.excluded x))
    (m.reversed && !(others.any (fun item => item.reversed)))

/-- `OrdMask::symmetric_difference` (src/ordmask/operations.rs). -/
def symmetric_difference (m other : OrdMask T) : OrdMask T :=
  from_key_points_set (get_key_points [m, other])
    (fun x => !(m.included x == other.included x))
    (Bool.xor m.reversed other.reversed)

/-- `OrdMask::complement` (src/ordmask/operations.rs): flip `reversed`,
keep `key_points`. -/
def complement (m : OrdMask T) : OrdMask T :=
  ⟨m.key_points, !m.reversed⟩

/-- `OrdMask::new_complement` (src/ordmask/operations.rs): the borrowing
variant, same result. -/
def new_complement (m : OrdMask T) : OrdMask T :=
  ⟨m.key_points, !m.reversed⟩

/-- The error type of `src/ordmask/convert.rs`, carrying the index of
the first falling element. -/
structure ConvertError where
  falling_pos : Nat
deriving DecidableEq

/-- `OrdMask::try_new` (src/ordmask/convert.rs): validate ordering, then
simplify. -/
def try_new (key_points : List T) (reversed : Bool) :
    Except ConvertError (OrdMask T) :=
  match get_first_falling_index key_points with
  | 0 => Except.ok ⟨simplifyList key_points, reversed⟩
  | n => Except.error ⟨n⟩

/-- `TryFrom<Vec<T>> for OrdMask<T>` (src/ordmask/convert.rs). -/
def try_from (key_points : List T) : Except ConvertError (OrdMask T) :=
  try_new key_points false

/-- Whether position `j` of `l` falls below its predecessor, i.e.
`l[j] < l[j-1]` with both indices in bounds — the condition
`get_first_falling_index` scans for. -/
def fallsAt (l : List T) (j : Nat) : Bool :=
  match l.get? (j - 1), l.get? j with
  | some a, some b => decide (b < a)
  | _, _ => false

end OrdMask

namespace OrdMask

variable {T : Type} [LinearOrder T]

/-- The maximal runs of equal adjacent values of a list: the partition
that the simplification rule of the specification speaks about. -/
def runsSpec : List T → List (List T)
  | [] => []
  | x :: xs =>
    (x :: xs.takeWhile (fun y => y == x)) ::
      runsSpec (xs.dropWhile (fun y => y == x))
termination_by l => l.length
decreasing_by
  simp only [List.length_cons]
  exact Nat.lt_succ_of_le (List.dropWhile_sublist _).length_le

/-- One representative of each odd-length run, in order. -/
def oddHeads : List (List T) → List T
  | [] => []
  | [] :: rs => oddHeads rs
  | (a :: r) :: rs =>
    if (a :: r).length % 2 = 1 then a :: oddHeads rs else oddHeads rs

/-! ### The validity scan -/

theorem gffiAux_eq_zero : ∀ (l : List T), l.Chain' (· ≤ ·) → ∀ i : Nat,
    gffiAux l i = 0
  | [], _, _ => rfl
  | [_], _, _ => rfl
  | x :: y :: rest, h, i => by
    rw [List.chain'_cons] at h
    simp only [gffiAux, if_neg (not_lt.mpr h.1)]
    exact gffiAux_eq_zero (y :: rest) h.2 (i + 1)

theorem fallsAt_cons_one (x y : T) (rest : List T) :
    fallsAt (x :: y :: rest) 1 = decide (y < x) := rfl

theorem fallsAt_cons_succ_succ (x : T) (l : List T) (k : Nat) :
    fallsAt (x :: l) (k + 2) = fallsAt l (k + 1) := by
  simp only [fallsAt, show k + 2 - 1 = k + 1 from rfl,
    show k + 1 - 1 = k from rfl, List.get?_cons_succ]

theorem gffiAux_of_not_chain : ∀ (l : List T), ¬ l.Chain' (· ≤ ·) → ∀ i : Nat,
    ∃ n, gffiAux l i = i + n ∧ 1 ≤ n ∧ fallsAt l n = true ∧
      ∀ j, 1 ≤ j → j < n → fallsAt l j = false
  | [], h, _ => absurd List.chain'_nil h
  | [x], h, _ => absurd (List.chain'_singleton x) h
  | x :: y :: rest, h, i => by
    by_cases hlt : y < x
    · refine ⟨1, ?_, le_refl 1, ?_, ?_⟩
      · simp [gffiAux, hlt]
      · simp [fallsAt_cons_one, hlt]
      · intro j hj1 hj; omega
    · have hxy : x ≤ y := not_lt.mp hlt
      have h2 : ¬ (y :: rest).Chain' (· ≤ ·) := fun hc =>
        h (List.chain'_cons.mpr ⟨hxy, hc⟩)
      obtain ⟨n, hg, hn1, hf, hmin⟩ := gffiAux_of_not_chain (y :: rest) h2 (i + 1)
      obtain ⟨k, rfl⟩ : ∃ k, n = k + 1 := ⟨n - 1, by omega⟩
      refine ⟨k + 2, ?_, by omega, ?_, ?_⟩
      · simp only [gffiAux, if_neg hlt, hg]; omega
      · rw [fallsAt_cons_succ_succ]; exact hf
      · intro j hj1 hjn
        match j, hj1 with
        | 1, _ => simp [fallsAt_cons_one, hlt]
        | (j' + 2), _ =>
          rw [fallsAt_cons_succ_succ]
          exact hmin (j' + 1) (by omega) (by omega)

theorem gffi_eq_zero_of_chain (l : List T) (h : l.Chain' (· ≤ ·)) :
    get_first_falling_index l = 0 :=
  gffiAux_eq_zero l h 0

theorem chain_of_gffi_eq_zero (l : List T)
    (h : get_first_falling_index l = 0) : l.Chain' (· ≤ ·) := by
  by_contra hc
  obtain ⟨n, hg, hn1, -, -⟩ := gffiAux_of_not_chain l hc 0
  rw [get_first_falling_index] at h
  omega

theorem is_valid_iff_chain (m : OrdMask T) :
    m.is_valid = true ↔ m.key_points.Chain' (· ≤ ·) := by
  rw [is_valid, beq_iff_eq]
  exact ⟨chain_of_gffi_eq_zero m.key_points, gffi_eq_zero_of_chain m.key_points⟩

/-! ### Simplification -/

theorem simplifyAux_chain : ∀ (ys : List T) (x : T) (cnt : Nat),
    (x :: ys).Chain' (· ≤ ·) →
    (simplifyAux x cnt ys).Chain' (· < ·) ∧ ∀ z ∈ simplifyAux x cnt ys, x ≤ z
  | [], x, cnt, _ => by
    by_cases hc : cnt % 2 = 1 <;>
      simp [simplifyAux, hc, List.chain'_singleton]
  | y :: ys, x, cnt, h => by
    rw [List.chain'_cons] at h
    by_cases hyx : y = x
    · subst hyx
      simp only [simplifyAux, beq_self_eq_true, if_true]
      exact simplifyAux_chain ys y (cnt + 1) h.2
    · have hxy : x < y := lt_of_le_of_ne h.1 (fun e => hyx e.symm)
      have IH := simplifyAux_chain ys y 1 h.2
      simp only [simplifyAux, if_neg (by simp [hyx] :
        ¬ (y == x) = true)]
      by_cases hc : cnt % 2 = 1
      · simp only [if_pos hc, List.cons_append, List.nil_append]
        refine ⟨?_, ?_⟩
        · rw [List.chain'_cons']
          refine ⟨fun b hb => ?_, IH.1⟩
          exact lt_of_lt_of_le hxy (IH.2 b (List.mem_of_mem_head? hb))
        · intro z hz
          rcases List.mem_cons.mp hz with rfl | hz'
          · exact le_refl z
          · exact le_of_lt (lt_of_lt_of_le hxy (IH.2 z hz'))
      · simp only [if_neg hc, List.nil_append]
        exact ⟨IH.1, fun z hz => le_of_lt (lt_of_lt_of_le hxy (IH.2 z hz))⟩

theorem simplifyList_chain (l : List T) (h : l.Chain' (· ≤ ·)) :
    (simplifyList l).Chain' (· < ·) := by
  cases l with
  | nil => exact List.chain'_nil
  | cons x xs => exact (simplifyAux_chain xs x 1 h).1

theorem simplifyAux_fixed : ∀ (ys : List T) (x : T) (cnt : Nat),
    (x :: ys).Chain' (· < ·) → cnt % 2 = 1 → simplifyAux x cnt ys = x :: ys
  | [], x, cnt, _, hc => by simp [simplifyAux, hc]
  | y :: ys, x, cnt, h, hc => by
    rw [List.chain'_cons] at h
    have hne : ¬ (y == x) = true := by
      simp only [beq_iff_eq]
      exact ne_of_gt h.1
    simp only [simplifyAux, if_neg hne, if_pos hc]
    rw [simplifyAux_fixed ys y 1 h.2 rfl]
    rfl

theorem simplifyList_fixed (l : List T) (h : l.Chain' (· < ·)) :
    simplifyList l = l := by
  cases l with
  | nil => rfl
  | cons x xs => exact simplifyAux_fixed xs x 1 h rfl

theorem simplify_fixed_of_pairwise (m : OrdMask T)
    (h : m.key_points.Pairwise (· < ·)) : m.simplify = m := by
  cases m with
  | mk kp r =>
    simp only [simplify, simplifyList_fixed kp h.chain']

theorem pairwise_simplifyList (l : List T) (h : l.Chain' (· ≤ ·)) :
    (simplifyList l).Pairwise (· < ·) :=
  List.chain'_iff_pairwise.mp (simplifyList_chain l h)

theorem isSimplifiedList_of_chain : ∀ l : List T, l.Chain' (· < ·) →
    isSimplifiedList l = true
  | [], _ => rfl
  | [_], _ => rfl
  | x :: y :: rest, h => by
    rw [List.chain'_cons] at h
    simp only [isSimplifiedList, Bool.and_eq_true, Bool.not_eq_true']
    exact ⟨by simp [ne_of_lt h.1], isSimplifiedList_of_chain (y :: rest) h.2⟩

/-! ### The merged candidate set of the set-algebra layer -/

theorem mem_insertSet : ∀ (l : List T) (x z : T),
    z ∈ insertSet x l ↔ z = x ∨ z ∈ l
  | [], x, z => by simp [insertSet]
  | y :: ys, x, z => by
    by_cases h1 : x < y
    · simp [insertSet, if_pos h1, List.mem_cons]
    · by_cases h2 : x = y
      · subst h2
        simp only [insertSet, if_neg h1, beq_self_eq_true, if_true,
          List.mem_cons]
        tauto
      · simp only [insertSet, if_neg h1, if_neg (by simp [h2] :
          ¬ (x == y) = true), List.mem_cons, mem_insertSet ys x z]
        tauto

theorem pairwise_insertSet : ∀ (l : List T), l.Pairwise (· < ·) →
    ∀ x, (insertSet x l).Pairwise (· < ·)
  | [], _, x => by simp [insertSet]
  | y :: ys, h, x => by
    rw [List.pairwise_cons] at h
    by_cases h1 : x < y
    · simp only [insertSet, if_pos h1]
      rw [List.pairwise_cons]
      refine ⟨fun z hz => ?_, List.pairwise_cons.mpr h⟩
      rcases List.mem_cons.mp hz with rfl | hz'
      · exact h1
      · exact lt_trans h1 (h.1 z hz')
    · by_cases h2 : x = y
      · simpa [insertSet, if_neg h1, h2] using List.pairwise_cons.mpr h
      · have h3 : y < x := by
          rcases lt_trichotomy x y with h' | h' | h'
          · exact absurd h' h1
          · exact absurd h' h2
          · exact h'
        simp only [insertSet, if_neg h1, if_neg (by simp [h2] :
          ¬ (x == y) = true)]
        rw [List.pairwise_cons]
        refine ⟨fun z hz => ?_, pairwise_insertSet ys h.2 x⟩
        rcases (mem_insertSet ys x z).mp hz with rfl | hz'
        · exact h3
        · exact h.1 z hz'

theorem pairwise_foldl_insertSet : ∀ (ps : List T) (acc : List T),
    acc.Pairwise (· < ·) →
    (ps.foldl (fun a p => insertSet p a) acc).Pairwise (· < ·)
  | [], _, h => h
  | p :: ps, acc, h =>
    pairwise_foldl_insertSet ps (insertSet p acc) (pairwise_insertSet acc h p)

theorem pairwise_get_key_points_aux : ∀ (masks : List (OrdMask T))
    (acc : List T), acc.Pairwise (· < ·) →
    (masks.foldl
      (fun acc m => m.key_points.foldl (fun a p => insertSet p a) acc)
      acc).Pairwise (· < ·)
  | [], _, h => h
  | m :: ms, acc, h =>
    pairwise_get_key_points_aux ms _
      (pairwise_foldl_insertSet m.key_points acc h)

theorem pairwise_get_key_points (masks : List (OrdMask T)) :
    (get_key_points masks).Pairwise (· < ·) :=
  pairwise_get_key_points_aux masks [] List.Pairwise.nil

theorem fromKeyPointsAux_sublist (f : T → Bool) (b : Bool) :
    ∀ (pts : List T) (k : Nat),
      (fromKeyPointsAux f b pts k).Sublist pts
  | [], _ => List.Sublist.refl []
  | p :: rest, k => by
    simp only [fromKeyPointsAux]
    split
    · exact (fromKeyPointsAux_sublist f b rest (k + 1)).cons₂ p
    · exact (fromKeyPointsAux_sublist f b rest k).cons p

theorem fromKeyPointsMapAux_sublist (b : Bool) :
    ∀ (entries : List (T × Bool)) (k : Nat),
      (fromKeyPointsMapAux b entries k).Sublist (entries.map Prod.fst)
  | [], _ => List.Sublist.refl []
  | (p, inc) :: rest, k => by
    simp only [fromKeyPointsMapAux, List.map_cons]
    split
    · exact (fromKeyPointsMapAux_sublist b rest (k + 1)).cons₂ p
    · exact (fromKeyPointsMapAux_sublist b rest k).cons p

theorem pairwise_from_key_points_set (pts : List T)
    (h : pts.Pairwise (· < ·)) (f : T → Bool) (b : Bool) :
    (from_key_points_set pts f b).key_points.Pairwise (· < ·) :=
  List.Pairwise.sublist (fromKeyPointsAux_sublist f b pts 0) h

theorem is_valid_of_pairwise (m : OrdMask T)
    (h : m.key_points.Pairwise (· < ·)) : m.is_valid = true :=
  (is_valid_iff_chain m).mpr (h.imp le_of_lt).chain'

theorem is_simplified_of_pairwise (m : OrdMask T)
    (h : m.key_points.Pairwise (· < ·)) : m.is_simplified = true :=
  isSimplifiedList_of_chain m.key_points h.chain'

/-! ### The run structure of simplification -/

theorem runsSpec_nil : runsSpec ([] : List T) = [] := by
  rw [runsSpec]

theorem runsSpec_cons (x : T) (xs : List T) :
    runsSpec (x :: xs) =
      (x :: xs.takeWhile (fun y => y == x)) ::
        runsSpec (xs.dropWhile (fun y => y == x)) := by
  rw [runsSpec]

theorem dropWhile_head_false (p : T → Bool) : ∀ (l : List T) (y : T)
    (r : List T), l.dropWhile p = y :: r → p y = false
  | [], y, r, h => by simp at h
  | x :: xs, y, r, h => by
    rw [List.dropWhile_cons] at h
    by_cases hp : p x = true
    · rw [if_pos hp] at h
      exact dropWhile_head_false p xs y r h
    · rw [if_neg hp] at h
      injection h with h1 _
      subst h1
      simpa using hp

theorem simplifyAux_takeWhile : ∀ (ys : List T) (x : T) (cnt : Nat),
    simplifyAux x cnt ys =
      (if (cnt + (ys.takeWhile (fun y => y == x)).length) % 2 = 1
        then [x] else []) ++
        simplifyList (ys.dropWhile (fun y => y == x))
  | [], x, cnt => by
    simp [simplifyAux, simplifyList]
  | y :: ys, x, cnt => by
    by_cases h : (y == x) = true
    · simp only [simplifyAux, if_pos h, List.takeWhile_cons,
        List.dropWhile_cons, h, if_true, List.length_cons]
      rw [simplifyAux_takeWhile ys x (cnt + 1)]
      have harith : cnt + 1 + (ys.takeWhile (fun y => y == x)).length =
          cnt + ((ys.takeWhile (fun y => y == x)).length + 1) := by omega
      rw [harith]
    · simp only [simplifyAux, if_neg h, List.takeWhile_cons,
        List.dropWhile_cons, h, if_false, List.length_nil, Nat.add_zero]
      rfl

theorem simplifyList_eq_oddHeads : ∀ (l : List T),
    simplifyList l = oddHeads (runsSpec l)
  | [] => by rw [runsSpec_nil]; rfl
  | x :: xs => by
    rw [runsSpec_cons]
    show simplifyAux x 1 xs = _
    rw [simplifyAux_takeWhile xs x 1]
    have IH := simplifyList_eq_oddHeads (xs.dropWhile (fun y => y == x))
    simp only [oddHeads, List.length_cons, ← IH]
    rw [Nat.add_comm 1 (xs.takeWhile (fun y => y == x)).length]
    by_cases hc : ((xs.takeWhile (fun y => y == x)).length + 1) % 2 = 1 <;>
      simp [hc]
termination_by l => l.length
decreasing_by
  simp only [List.length_cons]
  exact Nat.lt_succ_of_le (List.dropWhile_sublist _).length_le

theorem runsSpec_flatten : ∀ (l : List T), (runsSpec l).flatten = l
  | [] => by rw [runsSpec_nil]; rfl
  | x :: xs => by
    rw [runsSpec_cons, List.flatten_cons,
      runsSpec_flatten (xs.dropWhile (fun y => y == x)),
      List.cons_append, List.takeWhile_append_dropWhile]
termination_by l => l.length
decreasing_by
  simp only [List.length_cons]
  exact Nat.lt_succ_of_le (List.dropWhile_sublist _).length_le

theorem runsSpec_ne_nil : ∀ (l : List T), ∀ r ∈ runsSpec l, r ≠ []
  | [] => by rw [runsSpec_nil]; simp
  | x :: xs => by
    rw [runsSpec_cons]
    intro r hr
    rcases List.mem_cons.mp hr with rfl | hr'
    · simp
    · exact runsSpec_ne_nil (xs.dropWhile (fun y => y == x)) r hr'
termination_by l => l.length
decreasing_by
  simp only [List.length_cons]
  exact Nat.lt_succ_of_le (List.dropWhile_sublist _).length_le

theorem runsSpec_const : ∀ (l : List T), ∀ r ∈ runsSpec l,
    ∀ a ∈ r, ∀ b ∈ r, a = b
  | [] => by rw [runsSpec_nil]; simp
  | x :: xs => by
    rw [runsSpec_cons]
    intro r hr a ha b hb
    rcases List.mem_cons.mp hr with rfl | hr'
    · have hx : ∀ c ∈ x :: xs.takeWhile (fun y => y == x), c = x := by
        intro c hc
        rcases List.mem_cons.mp hc with rfl | hc'
        · rfl
        · simpa using List.mem_takeWhile_imp hc'
      rw [hx a ha, hx b hb]
    · exact runsSpec_const (xs.dropWhile (fun y => y == x)) r hr' a ha b hb
termination_by l => l.length
decreasing_by
  simp only [List.length_cons]
  exact Nat.lt_succ_of_le (List.dropWhile_sublist _).length_le

theorem runsSpec_maximal : ∀ (l : List T),
    (runsSpec l).Chain' (fun r s => r.head? ≠ s.head?)
  | [] => by rw [runsSpec_nil]; exact List.chain'_nil
  | x :: xs => by
    rw [runsSpec_cons, List.chain'_cons']
    refine ⟨?_, runsSpec_maximal (xs.dropWhile (fun y => y == x))⟩
    intro s hs
    cases hdw : xs.dropWhile (fun y => y == x) with
    | nil =>
      rw [hdw, runsSpec_nil] at hs
      simp at hs
    | cons y r =>
      rw [hdw, runsSpec_cons] at hs
      simp only [List.head?_cons, Option.mem_def, Option.some.injEq] at hs
      subst hs
      have hne : (y == x) = false := dropWhile_head_false _ xs y r hdw
      simp only [List.head?_cons, Ne, Option.some.injEq]
      intro he
      rw [he] at hne
      simp at hne
termination_by l => l.length
decreasing_by
  simp only [List.length_cons]
  exact Nat.lt_succ_of_le (List.dropWhile_sublist _).length_le

end OrdMask

open OrdMask

/-! ### Claim theorems -/

/-- C1: the claim states `included(v) = leading_state XOR (count of
boundaries ≤ v is odd)`.  The code's `included` (src/ordmask.rs:72-74)
computes the count parity only and never consults the `reversed`
(leading-state) flag that `construct.rs`/`operations.rs` maintain.  On
the well-formed mask `universal()` (no boundaries, leading state true,
documented in construct.rs as including every value) and `v = 0`, the
code returns `false` while the claimed formula gives
`true XOR false = true`. -/
theorem C1_included_ignores_leading_state :
    (universal : OrdMask Int).included 0 = false ∧
    Bool.xor (universal : OrdMask Int).reversed
      ((universal : OrdMask Int).key_points.countP
        (fun x => decide (x ≤ 0)) % 2 == 1) = true ∧
    (universal : OrdMask Int).is_valid = true ∧
    (universal : OrdMask Int).is_simplified = true := by decide

/-- C2: the claim states `complement(m).included(v) = !m.included(v)`.
Since `complement` only flips `reversed` and `included` ignores
`reversed`, the code gives `complement(m).included(v) = m.included(v)`.
At `m = ⟨[0], false⟩` (the mask `from(vec![0])`) and `v = 0` both sides
of the code evaluate to `true`, while the claim demands `false` on the
right; the involution half `complement(complement(m)) = m` does hold at
this input. -/
theorem C2_complement_law_fails :
    (complement (⟨[0], false⟩ : OrdMask Int)).included 0 = true ∧
    (!(⟨[0], false⟩ : OrdMask Int).included 0) = false ∧
    complement (complement (⟨[0], false⟩ : OrdMask Int)) =
      (⟨[0], false⟩ : OrdMask Int) := by decide

/-- C3: the claim states the De Morgan law
`complement(union(a,b)) = intersection(complement(a), complement(b))`.
Because `included` ignores the `reversed` flag, `complement(a)` answers
membership exactly as `a` does, and the law fails on the code: for
`a = ⟨[0,10], false⟩`, `b = ⟨[5,20], false⟩` the left side is
`⟨[0,20], true⟩` while the right side is `⟨[0,5,10], true⟩`. -/
theorem C3_de_morgan_fails :
    complement (union [(⟨[0, 10], false⟩ : OrdMask Int), ⟨[5, 20], false⟩])
      = (⟨[0, 20], true⟩ : OrdMask Int) ∧
    intersection [complement (⟨[0, 10], false⟩ : OrdMask Int),
        complement (⟨[5, 20], false⟩ : OrdMask Int)]
      = (⟨[0, 5, 10], true⟩ : OrdMask Int) ∧
    complement (union [(⟨[0, 10], false⟩ : OrdMask Int), ⟨[5, 20], false⟩])
      ≠ intersection [complement (⟨[0, 10], false⟩ : OrdMask Int),
          complement (⟨[5, 20], false⟩ : OrdMask Int)] := by decide

/-- C7: the claim states `isUniversal() = boundaries.isEmpty() ∧
leading_state`, true in particular on `universal()`.  The code
(src/ordmask.rs:160-162) instead tests the sentinel encoding
`len == 1 && first == T::min_value()`, so on `universal()` — empty
boundary list, leading state true — it returns `false`. -/
theorem C7_is_universal_disagrees :
    (universal : OrdMask Int).is_universal = false ∧
    (universal : OrdMask Int).key_points = [] ∧
    (universal : OrdMask Int).reversed = true := by decide

/-- C8: the claim states `includesDomainMin()` returns exactly
`leading_state`, including on empty boundary lists.  The code
(src/ordmask.rs:153-155) computes `boundaries[0] == T::min_value()`:
on `universal()` (empty list, leading state `true`) it panics
(modelled as `none`), and on `less_than(5)` (leading state `true`) it
returns `false`. -/
theorem C8_is_include_min_value_disagrees :
    (universal : OrdMask Int).is_include_min_value = none ∧
    (universal : OrdMask Int).reversed = true ∧
    (less_than (5 : Int)).is_include_min_value = some false ∧
    (less_than (5 : Int)).reversed = true := by decide

/-- C6 counterexample: the claim asserts `included(v1) = included(v2)`
whenever `v1 < v2` and no boundary lies strictly between them; but a
boundary equal to `v2` itself flips the state at `v2`.  For the
well-formed mask `⟨[5], false⟩`, `v1 = 4`, `v2 = 5`: no boundary is
strictly between 4 and 5, yet `included(4) = false` and
`included(5) = true`. -/
theorem C6_counterexample :
    (4 : Int) < 5 ∧
    (∀ b ∈ (⟨[5], false⟩ : OrdMask Int).key_points,
      ¬ ((4 : Int) < b ∧ b < 5)) ∧
    (⟨[5], false⟩ : OrdMask Int).is_valid = true ∧
    (⟨[5], false⟩ : OrdMask Int).is_simplified = true ∧
    ¬ ((⟨[5], false⟩ : OrdMask Int).included 4 =
        (⟨[5], false⟩ : OrdMask Int).included 5) := by decide

/-- C6 (amended): for every well-formed mask and all values `v1 < v2`
such that no boundary `b` satisfies `v1 < b ≤ v2` (half-open: the
original claim's open interval fails when a boundary equals `v2`),
`included(v1) = included(v2)`. -/
theorem C6_parity_invariant :
    ∀ (T : Type) [LinearOrder T] (m : OrdMask T) (v1 v2 : T),
      m.is_valid = true → v1 < v2 →
      (∀ b ∈ m.key_points, ¬ (v1 < b ∧ b ≤ v2)) →
      m.included v1 = m.included v2 := by
  intro T _ m v1 v2 _ hv hb
  have hcount : m.key_points.countP (fun x => decide (x ≤ v1)) =
      m.key_points.countP (fun x => decide (x ≤ v2)) := by
    apply List.countP_congr
    intro x hx
    simp only [decide_eq_true_eq]
    constructor
    · intro h1
      exact le_trans h1 (le_of_lt hv)
    · intro h2
      by_contra h1
      exact hb x hx ⟨not_le.mp h1, h2⟩
  simp only [included, hcount]

/-- Witness for C6's amended theorem at the mask `⟨[5], false⟩`,
`v1 = 1`, `v2 = 2`. -/
theorem C6_parity_invariant_witness :
    (⟨[5], false⟩ : OrdMask Int).is_valid = true ∧ (1 : Int) < 2 ∧
    (∀ b ∈ (⟨[5], false⟩ : OrdMask Int).key_points,
      ¬ ((1 : Int) < b ∧ b ≤ 2)) ∧
    (⟨[5], false⟩ : OrdMask Int).included 1 =
      (⟨[5], false⟩ : OrdMask Int).included 2 :=
  ⟨by decide, by decide, by decide,
    C6_parity_invariant Int ⟨[5], false⟩ 1 2 (by decide) (by decide)
      (by decide)⟩

/-- C4: on a non-decreasing boundary list, simplification keeps exactly
one representative of each odd-length maximal run of equal adjacent
values, dropping even runs, in left-to-right order: `simplifyList l`
equals the odd-run representatives of `runsSpec l`, where `runsSpec`
partitions `l` (its runs flatten back to `l`, each run is non-empty and
constant, and adjacent runs carry different values); in particular
`[0,0,1,1]` simplifies to `[]` and `[0,2,2,2,3,3,4]` to `[0,2,4]`. -/
theorem C4_simplify_runs :
    (∀ (T : Type) [LinearOrder T] (l : List T), l.Chain' (· ≤ ·) →
      simplifyList l = oddHeads (runsSpec l) ∧
      (runsSpec l).flatten = l ∧
      (∀ r ∈ runsSpec l, r ≠ [] ∧ ∀ a ∈ r, ∀ b ∈ r, a = b) ∧
      (runsSpec l).Chain' (fun r s => r.head? ≠ s.head?)) ∧
    simplifyList ([0, 0, 1, 1] : List Int) = [] ∧
    simplifyList ([0, 2, 2, 2, 3, 3, 4] : List Int) = [0, 2, 4] := by
  refine ⟨?_, by decide, by decide⟩
  intro T _ l _
  exact ⟨simplifyList_eq_oddHeads l, runsSpec_flatten l,
    fun r hr => ⟨runsSpec_ne_nil l r hr, runsSpec_const l r hr⟩,
    runsSpec_maximal l⟩

/-- Witness for C4 at the non-decreasing list `[0, 0, 1]`. -/
theorem C4_simplify_runs_witness :
    ([0, 0, 1] : List Int).Chain' (· ≤ ·) ∧
    (simplifyList ([0, 0, 1] : List Int) = oddHeads (runsSpec [0, 0, 1]) ∧
      (runsSpec ([0, 0, 1] : List Int)).flatten = [0, 0, 1] ∧
      (∀ r ∈ runsSpec ([0, 0, 1] : List Int), r ≠ [] ∧
        ∀ a ∈ r, ∀ b ∈ r, a = b) ∧
      (runsSpec ([0, 0, 1] : List Int)).Chain'
        (fun r s => r.head? ≠ s.head?)) :=
  ⟨by simp [List.chain'_cons, List.chain'_singleton],
    C4_simplify_runs.1 Int [0, 0, 1]
      (by simp [List.chain'_cons, List.chain'_singleton])⟩

/-- C5: `try_from` rejects any non-non-decreasing sequence with an
`OrderingViolation` carrying the first index `i ≥ 1` with
`seq[i] < seq[i-1]` (falls at that index, and at no earlier one), and
accepts any non-decreasing sequence, yielding the simplified mask; in
particular `try_from [1,0]` is the error at index 1 and
`try_from [1,2,3]` succeeds. -/
theorem C5_try_from_boundaries :
    (∀ (T : Type) [LinearOrder T] (l : List T), ¬ l.Chain' (· ≤ ·) →
      ∃ e : ConvertError, try_from l = Except.error e ∧
        1 ≤ e.falling_pos ∧ fallsAt l e.falling_pos = true ∧
        ∀ j, 1 ≤ j → j < e.falling_pos → fallsAt l j = false) ∧
    (∀ (T : Type) [LinearOrder T] (l : List T), l.Chain' (· ≤ ·) →
      try_from l = Except.ok ⟨simplifyList l, false⟩) ∧
    try_from ([1, 0] : List Int) = Except.error ⟨1⟩ ∧
    try_from ([1, 2, 3] : List Int) = Except.ok ⟨[1, 2, 3], false⟩ := by
  refine ⟨?_, ?_, rfl, rfl⟩
  · intro T _ l hc
    obtain ⟨n, hg, hn1, hf, hmin⟩ := gffiAux_of_not_chain l hc 0
    rw [Nat.zero_add] at hg
    obtain ⟨k, rfl⟩ : ∃ k, n = k + 1 := ⟨n - 1, by omega⟩
    refine ⟨⟨k + 1⟩, ?_, hn1, hf, hmin⟩
    simp only [try_from, try_new, get_first_falling_index, hg]
  · intro T _ l hc
    have hg : get_first_falling_index l = 0 := gffi_eq_zero_of_chain l hc
    simp only [try_from, try_new, hg]

/-- Witness for C5 at the falling list `[2, 1]` and the non-decreasing
list `[0, 5]`. -/
theorem C5_try_from_boundaries_witness :
    (¬ ([2, 1] : List Int).Chain' (· ≤ ·)) ∧
    (∃ e : ConvertError, try_from ([2, 1] : List Int) = Except.error e ∧
      1 ≤ e.falling_pos ∧ fallsAt ([2, 1] : List Int) e.falling_pos = true ∧
      ∀ j, 1 ≤ j → j < e.falling_pos →
        fallsAt ([2, 1] : List Int) j = false) ∧
    ([0, 5] : List Int).Chain' (· ≤ ·) ∧
    try_from ([0, 5] : List Int) =
      Except.ok ⟨simplifyList [0, 5], false⟩ :=
  ⟨by simp [List.chain'_cons, List.chain'_singleton],
    C5_try_from_boundaries.1 Int [2, 1]
      (by simp [List.chain'_cons, List.chain'_singleton]),
    by simp [List.chain'_cons, List.chain'_singleton],
    C5_try_from_boundaries.2.1 Int [0, 5]
      (by simp [List.chain'_cons, List.chain'_singleton])⟩

/-- C10: every mask produced by `union`, `intersection`, `minus` or
`symmetric_difference` has a strictly increasing boundary list — its
key points are a subsequence of the ordered deduplicated candidate set
`get_key_points` — and therefore satisfies both the validity invariant
(`is_valid`) and the simplified-form invariant (`is_simplified`)
without a separate simplification pass, for arbitrary input masks. -/
theorem C10_operations_sorted :
    ∀ (T : Type) [LinearOrder T],
      (∀ masks : List (OrdMask T),
        (union masks).key_points.Pairwise (· < ·) ∧
        (union masks).key_points.Sublist (get_key_points masks) ∧
        (union masks).is_valid = true ∧
        (union masks).is_simplified = true) ∧
      (∀ masks : List (OrdMask T),
        (intersection masks).key_points.Pairwise (· < ·) ∧
        (intersection masks).key_points.Sublist (get_key_points masks) ∧
        (intersection masks).is_valid = true ∧
        (intersection masks).is_simplified = true) ∧
      (∀ (m : OrdMask T) (others : List (OrdMask T)),
        (minus m others).key_points.Pairwise (· < ·) ∧
        (minus m others).key_points.Sublist
          (get_key_points (m :: others)) ∧
        (minus m others).is_valid = true ∧
        (minus m others).is_simplified = true) ∧
      (∀ (a b : OrdMask T),
        (symmetric_difference a b).key_points.Pairwise (· < ·) ∧
        (symmetric_difference a b).key_points.Sublist
          (get_key_points [a, b]) ∧
        (symmetric_difference a b).is_valid = true ∧
        (symmetric_difference a b).is_simplified = true) := by
  intro T _
  have main : ∀ (pts : List T) (f : T → Bool) (b : Bool),
      pts.Pairwise (· < ·) →
      (from_key_points_set pts f b).key_points.Pairwise (· < ·) ∧
      (from_key_points_set pts f b).key_points.Sublist pts ∧
      (from_key_points_set pts f b).is_valid = true ∧
      (from_key_points_set pts f b).is_simplified = true := by
    intro pts f b hp
    have hsub := fromKeyPointsAux_sublist f b pts 0
    have hpw := List.Pairwise.sublist hsub hp
    exact ⟨hpw, hsub, is_valid_of_pairwise _ hpw,
      is_simplified_of_pairwise _ hpw⟩
  refine ⟨fun masks => ?_, fun masks => ?_, fun m others => ?_,
    fun a b => ?_⟩
  · exact main _ _ _ (pairwise_get_key_points masks)
  · exact main _ _ _ (pairwise_get_key_points masks)
  · exact main _ _ _ (pairwise_get_key_points (m :: others))
  · exact main _ _ _ (pairwise_get_key_points [a, b])

/-- Inversion for a successful `try_new`: the input was non-decreasing
and the result is its simplification with the requested flag. -/
theorem try_new_ok_inv {T : Type} [LinearOrder T] (l : List T)
    (rev : Bool) (m : OrdMask T) (h : try_new l rev = Except.ok m) :
    m = ⟨simplifyList l, rev⟩ ∧ l.Chain' (· ≤ ·) := by
  by_cases hg : get_first_falling_index l = 0
  · refine ⟨?_, chain_of_gffi_eq_zero l hg⟩
    simp only [try_new, hg] at h
    exact (Except.ok.inj h).symm
  · exfalso
    obtain ⟨k, hk⟩ : ∃ k, get_first_falling_index l = k + 1 :=
      ⟨get_first_falling_index l - 1, by omega⟩
    simp only [try_new, hk] at h
    exact Except.noConfusion h

/-- Simplifying an already strictly increasing boundary list is the
identity, at the mask level. -/
theorem simplify_of_chain_le {T : Type} [LinearOrder T] (m : OrdMask T)
    (h : m.key_points.Chain' (· ≤ ·)) :
    (m.simplify).simplify = m.simplify := by
  apply simplify_fixed_of_pairwise
  exact pairwise_simplifyList m.key_points h

/-- C9: simplification is idempotent on well-formed masks, and every
public constructor — `empty`, `universal`, `not_less_than`, `less_than`,
`in_range`, `exclude_range`, `from_key_points_set`,
`from_key_points_map` (over set/map inputs, whose keys are strictly
ascending), the validated `try_new` family (`from`, `from_complement`,
`try_from`), the set-algebra operations, and `complement` of a
simplified mask — yields a mask on which `simplify` is a no-op. -/
theorem C9_simplify_idempotent :
    (∀ (T : Type) [LinearOrder T] (m : OrdMask T), m.is_valid = true →
      (m.simplify).simplify = m.simplify) ∧
    (∀ (T : Type) [LinearOrder T],
      (empty : OrdMask T).simplify = empty ∧
      (universal : OrdMask T).simplify = universal) ∧
    (∀ (T : Type) [LinearOrder T] (v : T),
      (not_less_than v).simplify = not_less_than v ∧
      (less_than v).simplify = less_than v) ∧
    (∀ (T : Type) [LinearOrder T] (s e : T),
      (in_range s e).simplify = in_range s e ∧
      (exclude_range s e).simplify = exclude_range s e) ∧
    (∀ (T : Type) [LinearOrder T] (pts : List T) (f : T → Bool)
      (b : Bool), pts.Pairwise (· < ·) →
      (from_key_points_set pts f b).simplify = from_key_points_set pts f b) ∧
    (∀ (T : Type) [LinearOrder T] (entries : List (T × Bool)) (b : Bool),
      (entries.map Prod.fst).Pairwise (· < ·) →
      (from_key_points_map entries b).simplify = from_key_points_map entries b) ∧
    (∀ (T : Type) [LinearOrder T] (l : List T) (rev : Bool)
      (m : OrdMask T), try_new l rev = Except.ok m → m.simplify = m) ∧
    (∀ (T : Type) [LinearOrder T] (masks : List (OrdMask T)),
      (union masks).simplify = union masks ∧
      (intersection masks).simplify = intersection masks) ∧
    (∀ (T : Type) [LinearOrder T] (m : OrdMask T)
      (others : List (OrdMask T)),
      (minus m others).simplify = minus m others) ∧
    (∀ (T : Type) [LinearOrder T] (a b : OrdMask T),
      (symmetric_difference a b).simplify = symmetric_difference a b) ∧
    (∀ (T : Type) [LinearOrder T] (m : OrdMask T), m.simplify = m →
      (complement m).simplify = complement m ∧
      (new_complement m).simplify = new_complement m) := by
  refine ⟨?_, ?_, ?_, ?_, ?_, ?_, ?_, ?_, ?_, ?_, ?_⟩
  · intro T _ m hv
    exact simplify_of_chain_le m ((is_valid_iff_chain m).mp hv)
  · intro T _
    exact ⟨rfl, rfl⟩
  · intro T _ v
    exact ⟨rfl, rfl⟩
  · intro T _ s e
    constructor
    · by_cases h : s < e
      · have hne : (e == s) = false := by
          simpa using ne_of_gt h
        simp [in_range, h, new, simplify, simplifyList, simplifyAux, hne]
      · simp [in_range, h, empty, new, simplify, simplifyList]
    · by_cases h : s < e
      · have hne : (e == s) = false := by
          simpa using ne_of_gt h
        simp [exclude_range, h, new, simplify, simplifyList,
          simplifyAux, hne]
      · simp [exclude_range, h, universal, new, simplify, simplifyList]
  · intro T _ pts f b hp
    exact simplify_fixed_of_pairwise _ (pairwise_from_key_points_set pts hp f b)
  · intro T _ entries b hp
    exact simplify_fixed_of_pairwise _
      (List.Pairwise.sublist (fromKeyPointsMapAux_sublist b entries 0) hp)
  · intro T _ l rev m h
    obtain ⟨rfl, hchain⟩ := try_new_ok_inv l rev m h
    exact simplify_fixed_of_pairwise _ (pairwise_simplifyList l hchain)
  · intro T _ masks
    constructor
    · exact simplify_fixed_of_pairwise _
        (List.Pairwise.sublist (fromKeyPointsAux_sublist _ _ _ 0)
          (pairwise_get_key_points masks))
    · exact simplify_fixed_of_pairwise _
        (List.Pairwise.sublist (fromKeyPointsAux_sublist _ _ _ 0)
          (pairwise_get_key_points masks))
  · intro T _ m others
    exact simplify_fixed_of_pairwise _
      (List.Pairwise.sublist (fromKeyPointsAux_sublist _ _ _ 0)
        (pairwise_get_key_points (m :: others)))
  · intro T _ a b
    exact simplify_fixed_of_pairwise _
      (List.Pairwise.sublist (fromKeyPointsAux_sublist _ _ _ 0)
        (pairwise_get_key_points [a, b]))
  · intro T _ m hm
    have hkp : simplifyList m.key_points = m.key_points :=
      congrArg key_points hm
    constructor <;>
      simp only [complement, new_complement, simplify, hkp]

/-- Witness for C9, instantiating each hypothesised conjunct at a
concrete input. -/
theorem C9_simplify_idempotent_witness :
    ((⟨[1, 1, 2], false⟩ : OrdMask Int).is_valid = true ∧
      ((⟨[1, 1, 2], false⟩ : OrdMask Int).simplify).simplify =
        (⟨[1, 1, 2], false⟩ : OrdMask Int).simplify) ∧
    (([1, 2] : List Int).Pairwise (· < ·) ∧
      (from_key_points_set ([1, 2] : List Int) (fun _ => true) false).simplify
        = from_key_points_set ([1, 2] : List Int) (fun _ => true) false) ∧
    ((([(1, true), (3, false)] : List (Int × Bool)).map Prod.fst).Pairwise
        (· < ·) ∧
      (from_key_points_map ([(1, true), (3, false)] : List (Int × Bool))
          false).simplify
        = from_key_points_map ([(1, true), (3, false)] : List (Int × Bool))
          false) ∧
    (try_new ([2, 2, 5] : List Int) true =
        Except.ok (⟨[5], true⟩ : OrdMask Int) ∧
      (⟨[5], true⟩ : OrdMask Int).simplify = ⟨[5], true⟩) ∧
    ((⟨[3], false⟩ : OrdMask Int).simplify = ⟨[3], false⟩ ∧
      (complement (⟨[3], false⟩ : OrdMask Int)).simplify =
        complement (⟨[3], false⟩ : OrdMask Int)) :=
  ⟨⟨by decide, C9_simplify_idempotent.1 Int ⟨[1, 1, 2], false⟩ (by decide)⟩,
   ⟨by decide, C9_simplify_idempotent.2.2.2.2.1 Int [1, 2] (fun _ => true)
      false (by decide)⟩,
   ⟨by decide, C9_simplify_idempotent.2.2.2.2.2.1 Int
      [(1, true), (3, false)] false (by decide)⟩,
   ⟨rfl, C9_simplify_idempotent.2.2.2.2.2.2.1 Int [2, 2, 5] true
      ⟨[5], true⟩ rfl⟩,
   ⟨by decide, (C9_simplify_idempotent.2.2.2.2.2.2.2.2.2.2 Int
      ⟨[3], false⟩ (by decide)).1⟩⟩
